import Mathlib

/-!
# Verification of the `ape-starknet` Starknet ecosystem codec

A shallow embedding of `src/ape_starknet/ecosystems.py` (class `Starknet`):
the calldata encoder, the return-data decoder, the event-item decoder and
the proxy resolver, together with proofs of the specification claims.

Python dynamic values are modelled by the inductive type `Value`;
Python exceptions by `PyErr` carried in `Except`.
-/

namespace ApeStarknet

/-- A Python runtime value as it flows through the codec:
integers, strings, byte blobs (`HexBytes`), lists/tuples and dicts. -/
inductive Value where
  | vint : Int → Value
  | vstr : String → Value
  | vbytes : List Nat → Value
  | vlist : List Value → Value
  | vdict : List (String × Value) → Value
deriving Repr

/-- Python exceptions that the embedded code paths can raise. The custom
error classes named by the spec are present as constructors so that claims
about them are statable; the source itself only ever produces the builtin
`StopIteration` (iterator exhaustion), `IndexError` and `ValueError`. -/
inductive PyErr where
  | stopIteration
  | indexError
  | valueError
  | typeError
  | malformedReturnData
  | malformedEventData
deriving Repr, DecidableEq

/-- Python `str.startswith`, computed on the character lists. -/
def strStartsWith (s pre : String) : Bool :=
  pre.data.isPrefixOf s.data

/-- Python `str.endswith`, computed on the character lists. -/
def strEndsWith (s suf : String) : Bool :=
  suf.data.isSuffixOf s.data

/-- `eth_utils.is_0x_prefixed`: the string starts with `0x` or `0X`. -/
def is_0x_prefixed (s : String) : Bool :=
  strStartsWith s "0x" || strStartsWith s "0X"

/-- Value of a hexadecimal digit character, if it is one. -/
def hexDigitVal (c : Char) : Option Nat :=
  if '0' ≤ c ∧ c ≤ '9' then some (c.toNat - '0'.toNat)
  else if 'a' ≤ c ∧ c ≤ 'f' then some (c.toNat - 'a'.toNat + 10)
  else if 'A' ≤ c ∧ c ≤ 'F' then some (c.toNat - 'A'.toNat + 10)
  else none

/-- The characters CPython's `int()` string conversion strips from both
ends of its input (the exact code-point set, checked against CPython:
ASCII whitespace except the `\x1c`–`\x1f` separators, NEL, NBSP, the
Unicode space separators, and the line/paragraph separators). -/
def pyWhitespace (c : Char) : Bool :=
  decide (c.toNat ∈ [9, 10, 11, 12, 13, 32, 133, 160, 5760, 8192, 8193,
    8194, 8195, 8196, 8197, 8198, 8199, 8200, 8201, 8202, 8232, 8233,
    8239, 8287, 12288])

/-- Strip `pyWhitespace` characters from both ends of a character list
(the whitespace stripping `int()` performs before parsing). -/
def stripChars (cs : List Char) : List Char :=
  ((cs.dropWhile pyWhitespace).reverse.dropWhile pyWhitespace).reverse

/-- The digit/underscore run after the first digit of a base-16 numeral:
each further digit may be preceded by at most one underscore, and the
run must end with a digit (PEP 515). -/
def hexUndRest (acc : Nat) : List Char → Option Nat
  | [] => some acc
  | c :: cs =>
    if c = '_' then
      match cs with
      | c' :: cs' =>
        match hexDigitVal c' with
        | some d => hexUndRest (16 * acc + d) cs'
        | none => none
      | [] => none
    else
      match hexDigitVal c with
      | some d => hexUndRest (16 * acc + d) cs
      | none => none

/-- A base-16 numeral body (what follows the `0x` prefix): non-empty,
optionally opened by a single underscore (allowed directly after the
prefix), then digits separated by at most single underscores. -/
def hexUnd : List Char → Option Nat
  | [] => none
  | c :: cs =>
    if c = '_' then
      match cs with
      | c' :: cs' =>
        match hexDigitVal c' with
        | some d => hexUndRest d cs'
        | none => none
      | [] => none
    else
      match hexDigitVal c with
      | some d => hexUndRest d cs
      | none => none

/-- Python `int(s, 16)` on a `0x`/`0X`-prefixed string: surrounding
whitespace is stripped, the prefix is removed, and the remainder must be
a non-empty run of hex digits with single underscore separators (an
underscore is also allowed directly after the prefix); otherwise
`ValueError`.  Modelled over ASCII digit strings: CPython additionally
maps Unicode decimal digits to ASCII before this parse, which is not
modelled here. -/
def parseHex0x (s : String) : Except PyErr Int :=
  match hexUnd ((stripChars s.data).drop 2) with
  | some n => .ok (n : Int)
  | none => .error .valueError

/-- The value of a pure hex-digit run (big-endian base 16). -/
def hexRunVal (ds : List Char) : Nat :=
  ds.foldl (fun acc c => 16 * acc + (hexDigitVal c).getD 0) 0

/-- `Starknet.encode_primitive_value`: returns `int`s unchanged, parses
`0x`-prefixed strings base 16, interprets byte blobs via their hex
representation (`int(value.hex(), 16)`, which raises `ValueError` on an
empty blob), and passes any other value through unchanged. -/
def encode_primitive_value : Value → Except PyErr Value
  | .vint n => .ok (.vint n)
  | .vstr s =>
    if is_0x_prefixed s then (parseHex0x s).map .vint
    else .ok (.vstr s)
  | .vbytes bs =>
    if bs.isEmpty then .error .valueError
    else .ok (.vint (bs.foldl (fun acc b => 256 * acc + (b % 256 : Nat)) 0 : Nat))
  | v => .ok v

mutual

/-- `Starknet._pre_encode_value`: dicts become structs, lists/tuples
become arrays, everything else goes through `encode_primitive_value`. -/
def pre_encode_value : Value → Except PyErr Value
  | .vdict kvs => (pre_encode_kvs kvs).map .vdict
  | .vlist vs => (pre_encode_list vs).map .vlist
  | v => encode_primitive_value v

/-- Element-wise `_pre_encode_value` over a list (the loop body of
`_pre_encode_array`). -/
def pre_encode_list : List Value → Except PyErr (List Value)
  | [] => .ok []
  | v :: rest => do
    let w ← pre_encode_value v
    let ws ← pre_encode_list rest
    pure (w :: ws)

/-- Element-wise `_pre_encode_value` over dict entries (the loop body of
`_pre_encode_struct`). -/
def pre_encode_kvs : List (String × Value) → Except PyErr (List (String × Value))
  | [] => .ok []
  | (k, v) :: rest => do
    let w ← pre_encode_value v
    let ws ← pre_encode_kvs rest
    pure ((k, w) :: ws)

end

/-- `Starknet._pre_encode_array`: a non-list value is promoted to a
one-element array; a list is pre-encoded element-wise. -/
def pre_encode_array (v : Value) : Except PyErr Value :=
  match v with
  | .vlist vs => (pre_encode_list vs).map .vlist
  | w => (pre_encode_value w).map (fun x => .vlist [x])

/-- One ABI input/output descriptor: an optional name and a type tag
(as in `ethpm_types.abi`, where input names are optional). -/
structure TypeSig where
  name : Option String
  type : String
deriving Repr, DecidableEq

/-- A decoded wire entry produced by the return-data / event decoders:
a scalar felt, a `Uint256` two-slot pair `(low, high)`, or an array. -/
inductive Decoded where
  | felt : Int → Decoded
  | pair : Int → Int → Decoded
  | arr : List Int → Decoded
deriving Repr, DecidableEq

/-- The value returned by `decode_returndata`: either a single entry
(the one-element-raw shortcut or the final unwrap) or the decoded list. -/
inductive RetData where
  | one : Decoded → RetData
  | many : List Decoded → RetData
deriving Repr, DecidableEq

/-- The pairwise walk of `abi.outputs` in `Starknet.decode_returndata`
(lines 110–126): `zip_longest(outputs, outputs[1:])` with an iterator
over the raw data.  `Uint256` consumes two slots; a `felt` followed by
`felt*` consumes a length then that many payload slots; a `felt*` output
itself is skipped (already consumed); anything else consumes one slot.
A `next()` on the exhausted iterator raises `StopIteration`. -/
def decodeOutputs : List TypeSig → List Int → Except PyErr (List Decoded)
  | [], _ => .ok []
  | cur :: rest, data =>
    if cur.type = "Uint256" then
      match data with
      | low :: high :: data' => (decodeOutputs rest data').map (.pair low high :: ·)
      | _ => .error .stopIteration
    else if cur.type = "felt" ∧ (rest.head?.map TypeSig.type) = some "felt*" then
      match data with
      | n :: data' =>
        if n.toNat ≤ data'.length then
          (decodeOutputs rest (data'.drop n.toNat)).map (.arr (data'.take n.toNat) :: ·)
        else .error .stopIteration
      | [] => .error .stopIteration
    else if cur.type = "felt*" then
      decodeOutputs rest data
    else
      match data with
      | x :: data' => (decodeOutputs rest data').map (.felt x :: ·)
      | [] => .error .stopIteration

/-- The final-unwrap condition of `decode_returndata` (line 129):
exactly one output, or exactly two outputs with the second `felt*`. -/
def unwrapCond (outputs : List TypeSig) : Bool :=
  outputs.length == 1 ||
    (outputs.length == 2 && ((outputs.get? 1).map TypeSig.type == some "felt*"))

/-- `Starknet.decode_returndata`: empty raw data is returned as is;
one-element raw data is returned unwrapped without consulting the
signature; otherwise the outputs are walked and the result is unwrapped
to its single entry when `unwrapCond` holds (`decoded[0]` raises
`IndexError` on an empty decode).  The raw elements are integers, on
which the initial `encode_primitive_value` pass is the identity. -/
def decode_returndata (outputs : List TypeSig) (raw : List Int) :
    Except PyErr RetData :=
  match raw with
  | [] => .ok (.many [])
  | [x] => .ok (.one (.felt x))
  | a :: b :: rest => do
    let decoded ← decodeOutputs outputs (a :: b :: rest)
    if unwrapCond outputs then
      match decoded with
      | d :: _ => pure (.one d)
      | [] => .error .indexError
    else
      pure (.many decoded)

/-- The inner `decode_items` of `Starknet.decode_logs` (lines 350–361):
walks the event input types over an iterator of the raw data; a
`Uint256` consumes two slots as `(low, high)`, anything else consumes
one; exhaustion raises `StopIteration`. -/
def decode_items : List TypeSig → List Int → Except PyErr (List Decoded)
  | [], _ => .ok []
  | t :: rest, data =>
    if t.type = "Uint256" then
      match data with
      | low :: high :: data' => (decode_items rest data').map (.pair low high :: ·)
      | _ => .error .stopIteration
    else
      match data with
      | x :: data' => (decode_items rest data').map (.felt x :: ·)
      | [] => .error .stopIteration

/-- Does this input play the declared-length role at position `index`?
The condition of `Starknet.encode_calldata` lines 156–161: the input has
a name ending in `_len`, is not at (or past) the last processed
position, and the next input's type ends with `*`. -/
def isLenPosition (inputs : List TypeSig) (lastIndex : Int) (ty : TypeSig)
    (index : Nat) : Bool :=
  (match ty.name with
   | some nm => strEndsWith nm "_len"
   | none => false) &&
  decide ((index : Int) < lastIndex) &&
  (match inputs.get? (index + 1) with
   | some nxt => strEndsWith nxt.type "*"
   | none => false)

/-- The `for call_arg, input_type in zip(call_args, method_abi.inputs)`
loop of `Starknet.encode_calldata` (lines 148–176), recursing over the
zipped list while tracking `index` and the
`did_process_array_during_arr_len` flag.  An input whose type ends in
`*` is skipped if the flag is set, else pre-encoded as a value; a
length-role input whose pre-encoded argument is an `int` is replaced by
the pre-encoded array at `index + 1` with the flag set; otherwise the
argument is pre-encoded as a value.  The `continue` taken when the flag
is set skips the `index += 1` at the bottom of the Python loop body, so
`index` is left unchanged on that path. -/
def encodeLoop (inputs : List TypeSig) (callArgs : List Value)
    (lastIndex : Int) :
    List (Value × TypeSig) → Nat → Bool → Except PyErr (List Value)
  | [], _, _ => .ok []
  | (arg, ty) :: rest, index, flag =>
    if strEndsWith ty.type "*" then
      if flag then encodeLoop inputs callArgs lastIndex rest index false
      else do
        let e ← pre_encode_value arg
        let es ← encodeLoop inputs callArgs lastIndex rest (index + 1) flag
        pure (e :: es)
    else if isLenPosition inputs lastIndex ty index then do
      let p ← pre_encode_value arg
      match p with
      | .vint _ => do
        let a ← pre_encode_array ((callArgs.get? (index + 1)).getD (.vint 0))
        let es ← encodeLoop inputs callArgs lastIndex rest (index + 1) true
        pure (a :: es)
      | v => do
        let es ← encodeLoop inputs callArgs lastIndex rest (index + 1) flag
        pure (v :: es)
    else do
      let e ← pre_encode_value arg
      let es ← encodeLoop inputs callArgs lastIndex rest (index + 1) flag
      pure (e :: es)

/-- The pre-encoded positional argument list built by
`Starknet.encode_calldata` before it is handed to the packer. -/
def preEncodedArgs (inputs : List TypeSig) (callArgs : List Value) :
    Except PyErr (List Value) :=
  encodeLoop inputs callArgs (min inputs.length callArgs.length - 1)
    (callArgs.zip inputs) 0 false

/-- Extract the integers of a pre-encoded array argument, if every
element is an integer. -/
def intList? : List Value → Option (List Int)
  | [] => some []
  | .vint n :: rest => (intList? rest).map (n :: ·)
  | _ => none

/-- Is this input the auto-computed length slot of a following array
input (skipped by the packer, which derives the length itself)? -/
def packerSkipsLen (ty : TypeSig) (rest : List TypeSig) : Bool :=
  (match ty.name with
   | some nm => strEndsWith nm "_len"
   | none => false) &&
  (match rest.head? with
   | some nxt => strEndsWith nxt.type "*"
   | none => false)

/-- Modelled from the spec: the external ABI-structural packer
(`starknet_py`'s `DataTransformer.from_python`, not part of this
repository), per §4.3 step 4 — it pairs each non-length input with one
positional value, emits an automatic length prefix followed by the
elements for an array-typed input, splits a wide-integer input into its
`(low, high)` slots, emits a felt as a single slot, and skips a `_len`
input preceding an array input (its value is derived from the actual
array size).  A value whose shape does not match the input type is a
type error. -/
def fromPython : List TypeSig → List Value → Except PyErr (List Int)
  | [], [] => .ok []
  | [], _ :: _ => .error .typeError
  | ty :: rest, args =>
    if packerSkipsLen ty rest then fromPython rest args
    else if strEndsWith ty.type "*" then
      match args with
      | .vlist vs :: args' =>
        match intList? vs with
        | some xs => (fromPython rest args').map (fun tl =>
            (xs.length : Int) :: xs ++ tl)
        | none => .error .typeError
      | _ => .error .typeError
    else if ty.type = "Uint256" then
      match args with
      | .vint n :: args' => (fromPython rest args').map (fun tl =>
          (n % 2 ^ 128) :: (n / 2 ^ 128) :: tl)
      | _ => .error .typeError
    else
      match args with
      | .vint n :: args' => (fromPython rest args').map (n :: ·)
      | _ => .error .typeError

/-- `Starknet.encode_calldata`: pre-encode the positional arguments with
the `_len`-lookahead loop, then pack them with the ABI-structural
transformer to obtain the flat felt sequence. -/
def encode_calldata (inputs : List TypeSig) (callArgs : List Value) :
    Except PyErr (List Int) := do
  let args ← preEncodedArgs inputs callArgs
  fromPython inputs args

/-- The proxy kinds of `ecosystems.py` (`class ProxyType(Enum)`). -/
inductive ProxyType where
  | LEGACY
  | ARGENT_X
  | OPEN_ZEPPELIN
deriving Repr, DecidableEq

/-- `StarknetProxy`: a resolved proxy target together with its kind. -/
structure StarknetProxy where
  target : Value
  type : ProxyType
deriving Repr

/-- The external world consulted by `Starknet.get_proxy_info`: whether
the address resolves to a contract instance, the contract's declared
view-method names, the results of invoking the two implementation view
methods, whether a client with a storage-read capability is available,
and the raw value read from the OpenZeppelin proxy storage slot. -/
structure ProxyEnv where
  is_contract : Bool
  view_methods : List String
  impl_result : Int
  get_impl_result : Int
  client_available : Bool
  storage_result : Value

/-- Python truthiness for the values a probe can produce: zero numbers
and empty strings/collections are falsy. -/
def truthy : Value → Bool
  | .vint n => n ≠ 0
  | .vstr s => s ≠ ""
  | .vbytes bs => !bs.isEmpty
  | .vlist vs => !vs.isEmpty
  | .vdict kvs => !kvs.isEmpty

/-- Is the storage probe result the string `"0x0"` (the comparison
`target == "0x0"` on line 402, which is `False` for any non-string)? -/
def isZeroSentinelStr : Value → Bool
  | .vstr s => s == "0x0"
  | _ => false

/-- The branch cascade of `Starknet.get_proxy_info` (lines 384–405):
the `(target, proxy_type)` pair after the Legacy, Argent-X and
OpenZeppelin probes, evaluated in that fixed order, first match wins. -/
def probeProxy (env : ProxyEnv) : Option Value × Option ProxyType :=
  if env.view_methods.contains "implementation" then
    (some (.vint env.impl_result), some .LEGACY)
  else if env.view_methods.contains "get_implementation" then
    (some (.vint env.get_impl_result), some .ARGENT_X)
  else if env.client_available then
    if isZeroSentinelStr env.storage_result then (none, none)
    else (some env.storage_result, some .OPEN_ZEPPELIN)
  else (none, none)

/-- `Starknet.get_proxy_info`: `None` when the address is not a
contract; otherwise run the probe cascade and return a `StarknetProxy`
exactly when both a truthy target and a proxy type were found
(`if target and proxy_type else None`). -/
def get_proxy_info (env : ProxyEnv) : Option StarknetProxy :=
  if !env.is_contract then none
  else
    match probeProxy env with
    | (some t, some ty) => if truthy t then some ⟨t, ty⟩ else none
    | _ => none

/-- Number of raw wire slots an event signature requires: two per
`Uint256` input, one per anything else. -/
def eventWireLen : List TypeSig → Nat
  | [] => 0
  | t :: rest => (if t.type = "Uint256" then 2 else 1) + eventWireLen rest

/-! ## Helper lemmas -/

@[simp] lemma except_map_ok {ε α β : Type} (f : α → β) (a : α) :
    (Except.ok a : Except ε α).map f = .ok (f a) := rfl

@[simp] lemma except_map_error {ε α β : Type} (f : α → β) (e : ε) :
    (Except.error e : Except ε α).map f = (.error e : Except ε β) := rfl

@[simp] lemma except_bind_ok {ε α β : Type} (a : α) (f : α → Except ε β) :
    (Except.ok a : Except ε α) >>= f = f a := rfl

@[simp] lemma except_pure_eq_ok {ε α : Type} (a : α) :
    (pure a : Except ε α) = .ok a := rfl

@[simp] lemma except_bind_error {ε α β : Type} (e : ε) (f : α → Except ε β) :
    (Except.error e : Except ε α) >>= f = (.error e : Except ε β) := rfl

lemma decode_items_short (types : List TypeSig) :
    ∀ data : List Int, data.length < eventWireLen types →
      decode_items types data = .error .stopIteration := by
  induction types with
  | nil => intro data h; simp [eventWireLen] at h
  | cons t rest ih =>
    intro data h
    by_cases ht : t.type = "Uint256"
    · match data with
      | [] => simp [decode_items, ht]
      | [x] => simp [decode_items, ht]
      | a :: b :: d =>
        have hd : d.length < eventWireLen rest := by
          simp [eventWireLen, ht] at h; omega
        simp [decode_items, ht, ih d hd]
    · match data with
      | [] => simp [decode_items, ht]
      | x :: d =>
        have hd : d.length < eventWireLen rest := by
          simp [eventWireLen, ht] at h; omega
        simp [decode_items, ht, ih d hd]

/-- For an all-`felt` tail, the array-lookahead condition of
`decodeOutputs` cannot fire. -/
lemma no_star_lookahead {t : TypeSig} {rest : List TypeSig}
    (hf : ∀ s ∈ rest, s.type = "felt") :
    ¬ (t.type = "felt" ∧ (rest.head?.map TypeSig.type) = some "felt*") := by
  rintro ⟨-, hx⟩
  match hr : rest.head? with
  | none => rw [hr] at hx; exact Option.noConfusion hx
  | some r =>
    rw [hr] at hx
    have hrm : r ∈ rest := List.mem_of_mem_head? (by rw [hr]; rfl)
    have hrt := hf r hrm
    rw [Option.map_some'] at hx
    have : r.type = "felt*" := Option.some.inj hx
    rw [hrt] at this
    exact absurd this (by decide)

/-- One scalar step of the output walk, when no special branch fires. -/
lemma decodeOutputs_scalar_step (t : TypeSig) (rest : List TypeSig) (x : Int)
    (d : List Int) (hu : ¬ t.type = "Uint256")
    (hno : ¬ (t.type = "felt" ∧ (rest.head?.map TypeSig.type) = some "felt*"))
    (hstar : ¬ t.type = "felt*") :
    decodeOutputs (t :: rest) (x :: d) =
      (decodeOutputs rest d).map (fun ds => .felt x :: ds) := by
  simp only [decodeOutputs]
  rw [if_neg hu, if_neg hno, if_neg hstar]

lemma decodeOutputs_felts_short (outputs : List TypeSig) :
    ∀ data : List Int, (∀ t ∈ outputs, t.type = "felt") →
      data.length < outputs.length →
      decodeOutputs outputs data = .error .stopIteration := by
  induction outputs with
  | nil => intro data _ h; simp at h
  | cons t rest ih =>
    intro data hf h
    have ht : t.type = "felt" := hf t (by simp)
    have hrestf : ∀ s ∈ rest, s.type = "felt" := fun s hs => hf s (by simp [hs])
    have hu : ¬ t.type = "Uint256" := by rw [ht]; decide
    have hstar : ¬ t.type = "felt*" := by rw [ht]; decide
    match data with
    | [] =>
      simp only [decodeOutputs]
      rw [if_neg hu, if_neg (no_star_lookahead hrestf), if_neg hstar]
    | x :: d =>
      have hd : d.length < rest.length := by simpa using h
      have hrest := ih d hrestf hd
      rw [decodeOutputs_scalar_step t rest x d hu (no_star_lookahead hrestf) hstar,
        hrest]
      rfl

/-! ## Claims -/

/-- **C3**: for every output signature, decoding a raw array with exactly
one element returns that (coerced) element directly — never wrapped in a
one-element sequence — bypassing the output-signature walk entirely. -/
theorem decode_returndata_singleton (outputs : List TypeSig) (x : Int) :
    decode_returndata outputs [x] = .ok (.one (.felt x)) := rfl

/-- **C3** witness: `decode_returndata(abi, [42]) == 42` for a concrete
abi that would otherwise decode differently. -/
theorem decode_returndata_singleton_witness :
    decode_returndata [⟨some "a", "Uint256"⟩, ⟨some "b", "felt*"⟩] [42] =
      .ok (.one (.felt 42)) :=
  decode_returndata_singleton [⟨some "a", "Uint256"⟩, ⟨some "b", "felt*"⟩] 42

/-- **C2**: a `Uint256` field consumes exactly two consecutive raw
elements as `(low, high)`, in both return-data decoding and event-log
decoding; concretely, `[a: Uint256]` over `[10,0]` gives `a = (10,0)`
and `[a: felt, b: Uint256]` over `[5,42,1]` gives `a = 5`,
`b = (42,1)`. -/
theorem uint256_consumes_two_slots :
    (∀ (t : TypeSig) (rest : List TypeSig) (low high : Int) (data : List Int),
        t.type = "Uint256" →
        decodeOutputs (t :: rest) (low :: high :: data) =
          (decodeOutputs rest data).map (fun ds => .pair low high :: ds)) ∧
    (∀ (t : TypeSig) (rest : List TypeSig) (low high : Int) (data : List Int),
        t.type = "Uint256" →
        decode_items (t :: rest) (low :: high :: data) =
          (decode_items rest data).map (fun ds => .pair low high :: ds)) ∧
    decode_returndata [⟨some "a", "Uint256"⟩] [10, 0] = .ok (.one (.pair 10 0)) ∧
    decode_returndata [⟨some "a", "felt"⟩, ⟨some "b", "Uint256"⟩] [5, 42, 1] =
      .ok (.many [.felt 5, .pair 42 1]) ∧
    decode_items [⟨some "a", "Uint256"⟩] [10, 0] = .ok [.pair 10 0] ∧
    decode_items [⟨some "a", "felt"⟩, ⟨some "b", "Uint256"⟩] [5, 42, 1] =
      .ok [.felt 5, .pair 42 1] := by
  refine ⟨?_, ?_, rfl, rfl, rfl, rfl⟩
  · intro t rest low high data ht
    simp [decodeOutputs, ht]
  · intro t rest low high data ht
    simp [decode_items, ht]

/-- **C2** witness: the two general conjuncts applied at a concrete
`Uint256` field over concrete data. -/
theorem uint256_consumes_two_slots_witness :
    decodeOutputs [⟨some "u", "Uint256"⟩] [3, 4] = .ok [.pair 3 4] ∧
    decode_items [⟨some "u", "Uint256"⟩] [3, 4] = .ok [.pair 3 4] := by
  constructor
  · have h := uint256_consumes_two_slots.1 ⟨some "u", "Uint256"⟩ [] 3 4 [] rfl
    rw [h]; rfl
  · have h := uint256_consumes_two_slots.2.1 ⟨some "u", "Uint256"⟩ [] 3 4 [] rfl
    rw [h]; rfl

/-- **C6** counterexample: on raw wire data shorter than the signature
requires, both decoders fail with the builtin iterator-exhaustion
exception (`StopIteration` from `next()`), not with
`MalformedReturnDataError` / `MalformedEventDataError` — the source never
raises (nor even imports) such custom error classes. -/
theorem short_data_raises_stop_iteration :
    decode_returndata [⟨some "a", "felt"⟩, ⟨some "b", "felt"⟩, ⟨some "c", "felt"⟩]
        [1, 2] = .error .stopIteration ∧
    decode_returndata [⟨some "a", "felt"⟩, ⟨some "b", "felt"⟩, ⟨some "c", "felt"⟩]
        [1, 2] ≠ .error .malformedReturnData ∧
    decode_items [⟨some "a", "felt"⟩, ⟨some "b", "Uint256"⟩] [5, 42] =
      .error .stopIteration ∧
    decode_items [⟨some "a", "felt"⟩, ⟨some "b", "Uint256"⟩] [5, 42] ≠
      .error .malformedEventData := by
  refine ⟨rfl, ?_, rfl, ?_⟩
  · intro h
    have h' : (Except.error .stopIteration : Except PyErr RetData) =
        .error .malformedReturnData := h
    injection h' with h''
    cases h''
  · intro h
    have h' : (Except.error .stopIteration : Except PyErr (List Decoded)) =
        .error .malformedEventData := h
    injection h' with h''
    cases h''

lemma except_map_eq_error {ε α β : Type} {x : Except ε α} {f : α → β}
    {e : ε} (h : x.map f = .error e) : x = .error e := by
  cases x with
  | error e' =>
    rw [except_map_error] at h
    rw [Except.error.inj h]
  | ok a => exact Except.noConfusion h

/-- The only exception `decode_items` ever raises is `StopIteration`. -/
lemma decode_items_error_stop (types : List TypeSig) :
    ∀ (data : List Int) (e : PyErr),
      decode_items types data = .error e → e = .stopIteration := by
  induction types with
  | nil => intro data e h; exact Except.noConfusion h
  | cons t rest ih =>
    intro data e h
    simp only [decode_items] at h
    by_cases ht : t.type = "Uint256"
    · rw [if_pos ht] at h
      match data, h with
      | [], h => exact (Except.error.inj h).symm
      | [x], h => exact (Except.error.inj h).symm
      | a :: b :: d, h => exact ih d e (except_map_eq_error h)
    · rw [if_neg ht] at h
      match data, h with
      | [], h => exact (Except.error.inj h).symm
      | x :: d, h => exact ih d e (except_map_eq_error h)

/-- The only exception the output walk ever raises is `StopIteration`. -/
lemma decodeOutputs_error_stop (outputs : List TypeSig) :
    ∀ (data : List Int) (e : PyErr),
      decodeOutputs outputs data = .error e → e = .stopIteration := by
  induction outputs with
  | nil => intro data e h; exact Except.noConfusion h
  | cons cur rest ih =>
    intro data e h
    simp only [decodeOutputs] at h
    by_cases h1 : cur.type = "Uint256"
    · rw [if_pos h1] at h
      match data, h with
      | [], h => exact (Except.error.inj h).symm
      | [x], h => exact (Except.error.inj h).symm
      | a :: b :: d, h => exact ih d e (except_map_eq_error h)
    · rw [if_neg h1] at h
      by_cases h2 : cur.type = "felt" ∧ (rest.head?.map TypeSig.type) = some "felt*"
      · rw [if_pos h2] at h
        match data, h with
        | [], h => exact (Except.error.inj h).symm
        | n :: d, h =>
          have h' : (if n.toNat ≤ d.length then
                (decodeOutputs rest (d.drop n.toNat)).map
                  (fun x => Decoded.arr (d.take n.toNat) :: x)
              else (.error .stopIteration : Except PyErr (List Decoded))) =
              .error e := h
          by_cases h3 : n.toNat ≤ d.length
          · rw [if_pos h3] at h'
            exact ih (d.drop n.toNat) e (except_map_eq_error h')
          · rw [if_neg h3] at h'
            exact (Except.error.inj h').symm
      · rw [if_neg h2] at h
        by_cases h4 : cur.type = "felt*"
        · rw [if_pos h4] at h
          exact ih data e h
        · rw [if_neg h4] at h
          match data, h with
          | [], h => exact (Except.error.inj h).symm
          | x :: d, h => exact ih d e (except_map_eq_error h)

/-- `decode_returndata` raises only `StopIteration` (iterator walk) or
`IndexError` (unwrapping an empty decode). -/
lemma decode_returndata_error_kinds (outputs : List TypeSig)
    (raw : List Int) (e : PyErr)
    (h : decode_returndata outputs raw = .error e) :
    e = .stopIteration ∨ e = .indexError := by
  match raw, h with
  | [], h => exact Except.noConfusion h
  | [x], h => exact Except.noConfusion h
  | a :: b :: rest, h =>
    rw [decode_returndata] at h
    cases hdec : decodeOutputs outputs (a :: b :: rest) with
    | error e' =>
      rw [hdec, except_bind_error] at h
      have he' := decodeOutputs_error_stop outputs (a :: b :: rest) e' hdec
      exact Or.inl ((Except.error.inj h) ▸ he')
    | ok ds =>
      rw [hdec, except_bind_ok] at h
      by_cases hu : unwrapCond outputs = true
      · rw [if_pos hu] at h
        match ds, h with
        | [], h => exact Or.inr (Except.error.inj h).symm
        | d :: ds', h => exact Except.noConfusion h
      · rw [if_neg hu] at h
        exact Except.noConfusion h

/-- **C6** as amended: event-log decoding fails with the builtin
`StopIteration` exhaustion exception whenever the raw data is shorter
than the signature requires (two slots per `Uint256`, one per other
input), and that is the only exception it raises.  Return-data decoding
returns successfully on raw data of length 0 or 1 regardless of the
signature (the empty and single-element shortcuts); past the shortcuts
a data shortage likewise surfaces as `StopIteration` — the only
exceptions `decode_returndata` raises at all are `StopIteration` from
the iterator walk and `IndexError` from unwrapping an empty decode,
never a custom `Malformed…` error (shown concretely for all-scalar
signatures shorter than their raw data). -/
theorem exhaustion_is_fatal_stop_iteration :
    (∀ (types : List TypeSig) (data : List Int),
        data.length < eventWireLen types →
        decode_items types data = .error .stopIteration) ∧
    (∀ (types : List TypeSig) (data : List Int) (e : PyErr),
        decode_items types data = .error e → e = .stopIteration) ∧
    (∀ (outputs : List TypeSig) (raw : List Int) (e : PyErr),
        decodeOutputs outputs raw = .error e → e = .stopIteration) ∧
    (∀ (outputs : List TypeSig) (raw : List Int) (e : PyErr),
        decode_returndata outputs raw = .error e →
          e = .stopIteration ∨ e = .indexError) ∧
    (∀ outputs : List TypeSig, decode_returndata outputs [] = .ok (.many [])) ∧
    (∀ (outputs : List TypeSig) (x : Int),
        decode_returndata outputs [x] = .ok (.one (.felt x))) ∧
    (∀ (outputs : List TypeSig) (raw : List Int),
        (∀ t ∈ outputs, t.type = "felt") → 2 ≤ raw.length →
        raw.length < outputs.length →
        decode_returndata outputs raw = .error .stopIteration) := by
  refine ⟨fun types data h => decode_items_short types data h,
    fun types data e h => decode_items_error_stop types data e h,
    fun outputs raw e h => decodeOutputs_error_stop outputs raw e h,
    fun outputs raw e h => decode_returndata_error_kinds outputs raw e h,
    fun _ => rfl, fun _ _ => rfl, ?_⟩
  intro outputs raw hf h2 hlt
  match raw with
  | a :: b :: rest =>
    have hwalk := decodeOutputs_felts_short outputs (a :: b :: rest) hf hlt
    simp [decode_returndata, hwalk]

/-- **C6** amended-claim witness: the exhaustion statements and the
error-kind characterizations applied at concrete short inputs, plus a
shortcut success. -/
theorem exhaustion_is_fatal_stop_iteration_witness :
    decode_items [⟨some "u", "Uint256"⟩] [9] = .error .stopIteration ∧
    decode_returndata [⟨some "a", "felt"⟩, ⟨some "b", "felt"⟩, ⟨some "c", "felt"⟩]
      [1, 2] = .error .stopIteration ∧
    (PyErr.stopIteration = .stopIteration ∨ PyErr.stopIteration = .indexError) ∧
    decode_returndata [⟨some "a", "felt"⟩, ⟨some "b", "felt"⟩] [] = .ok (.many []) := by
  refine ⟨?_, ?_, ?_, ?_⟩
  · exact exhaustion_is_fatal_stop_iteration.1 [⟨some "u", "Uint256"⟩] [9]
      (by decide)
  · exact exhaustion_is_fatal_stop_iteration.2.2.2.2.2.2
      [⟨some "a", "felt"⟩, ⟨some "b", "felt"⟩, ⟨some "c", "felt"⟩] [1, 2]
      (by decide) (by decide) (by decide)
  · exact exhaustion_is_fatal_stop_iteration.2.2.2.1
      [⟨some "a", "felt"⟩, ⟨some "b", "felt"⟩, ⟨some "c", "felt"⟩] [1, 2]
      .stopIteration rfl
  · exact exhaustion_is_fatal_stop_iteration.2.2.2.2.1
      [⟨some "a", "felt"⟩, ⟨some "b", "felt"⟩]

/-- **C9** counterexample: the primitive coercer is *not* failure-free —
on the hex-prefixed string `"0xzz"` the parse `int("0xzz", 16)` raises
`ValueError`, and on an empty byte blob `int(HexBytes(b"").hex(), 16)`
raises `ValueError` as well. -/
theorem encode_primitive_value_can_raise :
    encode_primitive_value (.vstr "0xzz") = .error .valueError ∧
    encode_primitive_value (.vbytes []) = .error .valueError :=
  ⟨rfl, rfl⟩

/-- A hex digit is never one of the stripped whitespace characters. -/
lemma pyWhitespace_eq_false_of_digit (c : Char)
    (h : (hexDigitVal c).isSome = true) : pyWhitespace c = false := by
  have hb : 48 ≤ c.toNat ∧ c.toNat ≤ 57 ∨ 97 ≤ c.toNat ∧ c.toNat ≤ 102 ∨
      65 ≤ c.toNat ∧ c.toNat ≤ 70 := by
    unfold hexDigitVal at h
    by_cases h1 : '0' ≤ c ∧ c ≤ '9'
    · exact Or.inl ⟨h1.1, h1.2⟩
    · rw [if_neg h1] at h
      by_cases h2 : 'a' ≤ c ∧ c ≤ 'f'
      · exact Or.inr (Or.inl ⟨h2.1, h2.2⟩)
      · rw [if_neg h2] at h
        by_cases h3 : 'A' ≤ c ∧ c ≤ 'F'
        · exact Or.inr (Or.inr ⟨h3.1, h3.2⟩)
        · rw [if_neg h3] at h
          exact absurd h (by simp)
  cases hw : pyWhitespace c
  · rfl
  · exfalso
    unfold pyWhitespace at hw
    have hmem := of_decide_eq_true hw
    simp only [List.mem_cons, List.not_mem_nil, or_false] at hmem
    omega

lemma dropWhile_append_all_left {p : Char → Bool} (w l : List Char)
    (hw : ∀ c ∈ w, p c = true) : (w ++ l).dropWhile p = l.dropWhile p := by
  induction w with
  | nil => rfl
  | cons c w' ih =>
    rw [List.cons_append, List.dropWhile_cons_of_pos (hw c (by simp))]
    exact ih (fun c hc => hw c (by simp [hc]))

lemma dropWhile_append_of_ne_nil {p : Char → Bool} (l₁ l₂ : List Char)
    (h : l₁.dropWhile p ≠ []) :
    (l₁ ++ l₂).dropWhile p = l₁.dropWhile p ++ l₂ := by
  induction l₁ with
  | nil => exact absurd rfl h
  | cons c cs ih =>
    by_cases pc : p c = true
    · rw [List.cons_append, List.dropWhile_cons_of_pos pc,
        List.dropWhile_cons_of_pos pc]
      exact ih (by rwa [List.dropWhile_cons_of_pos pc] at h)
    · rw [List.cons_append, List.dropWhile_cons_of_neg pc,
        List.dropWhile_cons_of_neg pc, List.cons_append]

/-- Appending stripped-whitespace characters does not change the
stripped form (the trailing-whitespace tolerance of `int()`). -/
lemma stripChars_append_ws (cs w : List Char)
    (hw : ∀ c ∈ w, pyWhitespace c = true) :
    stripChars (cs ++ w) = stripChars cs := by
  unfold stripChars
  cases hdw : cs.dropWhile pyWhitespace with
  | nil =>
    have hcsall := List.dropWhile_eq_nil_iff.mp hdw
    have h1 : (cs ++ w).dropWhile pyWhitespace = [] := by
      rw [List.dropWhile_eq_nil_iff]
      intro x hx
      rcases List.mem_append.mp hx with h | h
      · exact hcsall x h
      · exact hw x h
    rw [h1]
  | cons a l' =>
    have h1 : (cs ++ w).dropWhile pyWhitespace = (a :: l') ++ w := by
      rw [dropWhile_append_of_ne_nil cs w (by rw [hdw]; exact List.cons_ne_nil a l'),
        hdw]
    have h2 : ((a :: l') ++ w).reverse.dropWhile pyWhitespace =
        (a :: l').reverse.dropWhile pyWhitespace := by
      rw [List.reverse_append]
      exact dropWhile_append_all_left w.reverse (a :: l').reverse
        (fun c hc => hw c (List.mem_reverse.mp hc))
    rw [h1, h2]

/-- Trailing stripped-whitespace does not affect the parse. -/
lemma parseHex0x_append_ws (s : String) (w : List Char)
    (hw : ∀ c ∈ w, pyWhitespace c = true) :
    parseHex0x ⟨s.data ++ w⟩ = parseHex0x s := by
  unfold parseHex0x
  rw [show (String.mk (s.data ++ w)).data = s.data ++ w from rfl,
    stripChars_append_ws s.data w hw]

/-- The cons unfolding of `hexUnd`, stated once for rewriting. -/
lemma hexUnd_cons (c : Char) (cs : List Char) :
    hexUnd (c :: cs) =
      if c = '_' then
        match cs with
        | c' :: cs' =>
          match hexDigitVal c' with
          | some d => hexUndRest d cs'
          | none => none
        | [] => none
      else
        match hexDigitVal c with
        | some d => hexUndRest d cs
        | none => none := rfl

lemma hexUndRest_digits (cs : List Char)
    (hall : ∀ c ∈ cs, (hexDigitVal c).isSome = true) :
    ∀ acc : Nat, hexUndRest acc cs =
      some (cs.foldl (fun a c => 16 * a + (hexDigitVal c).getD 0) acc) := by
  induction cs with
  | nil => intro acc; rfl
  | cons c cs' ih =>
    intro acc
    have hc : (hexDigitVal c).isSome = true := hall c (by simp)
    obtain ⟨d, hd⟩ := Option.isSome_iff_exists.mp hc
    have hune : ¬ c = '_' := by
      intro he
      have hnone : hexDigitVal '_' = none := by decide
      rw [he, hnone] at hd
      exact Option.noConfusion hd
    unfold hexUndRest
    rw [if_neg hune, hd]
    show hexUndRest (16 * acc + d) cs' =
      some ((c :: cs').foldl (fun a c => 16 * a + (hexDigitVal c).getD 0) acc)
    rw [ih (fun x hx => hall x (by simp [hx])) (16 * acc + d)]
    simp only [List.foldl_cons, hd, Option.getD_some]

/-- A non-empty pure digit run after `0x` parses to its base-16 value. -/
lemma parseHex0x_digit_run (ds : List Char) (hne : ds ≠ [])
    (hall : ∀ c ∈ ds, (hexDigitVal c).isSome = true) :
    parseHex0x ⟨'0' :: 'x' :: ds⟩ = .ok ((hexRunVal ds : Nat) : Int) := by
  have hstrip : stripChars ('0' :: 'x' :: ds) = '0' :: 'x' :: ds := by
    unfold stripChars
    rw [List.dropWhile_cons_of_neg (by decide : ¬ pyWhitespace '0' = true)]
    cases hrev : ds.reverse with
    | nil => exact absurd (by simpa using hrev) hne
    | cons a l' =>
      have ha : a ∈ ds := List.mem_reverse.mp (by rw [hrev]; simp)
      have haw : ¬ pyWhitespace a = true := by
        rw [pyWhitespace_eq_false_of_digit a (hall a ha)]
        exact Bool.false_ne_true
      have hR : ('0' :: 'x' :: ds).reverse = a :: (l' ++ ['x', '0']) := by
        rw [List.reverse_cons, List.reverse_cons, hrev]
        simp
      rw [hR, List.dropWhile_cons_of_neg haw, ← hR, List.reverse_reverse]
  unfold parseHex0x
  rw [show (String.mk ('0' :: 'x' :: ds)).data = '0' :: 'x' :: ds from rfl,
    hstrip, show ('0' :: 'x' :: ds).drop 2 = ds from rfl]
  cases ds with
  | nil => exact absurd rfl hne
  | cons c cs =>
    have hc : (hexDigitVal c).isSome = true := hall c (by simp)
    obtain ⟨d, hd⟩ := Option.isSome_iff_exists.mp hc
    have hune : ¬ c = '_' := by
      intro he
      have hnone : hexDigitVal '_' = none := by decide
      rw [he, hnone] at hd
      exact Option.noConfusion hd
    have hrun : hexUnd (c :: cs) = some (hexRunVal (c :: cs)) := by
      rw [hexUnd_cons, if_neg hune, hd]
      show hexUndRest d cs = some (hexRunVal (c :: cs))
      rw [hexUndRest_digits cs (fun x hx => hall x (by simp [hx])) d]
      unfold hexRunVal
      simp only [List.foldl_cons, hd, Option.getD_some, Nat.mul_zero,
        Nat.zero_add]
    rw [hrun]

/-- **C9** as amended: the coercer returns integers unchanged; parses
hex-prefixed strings exactly as Python `int(s, 16)` does — a non-empty
run of hex digits yields its base-16 value, single underscore
separators and surrounding stripped-whitespace characters are accepted
— but raises `ValueError` itself when the remainder is not a valid
base-16 numeral (e.g. `"0xzz"`, `"0x"`, doubled or trailing
underscores); interprets non-empty byte blobs as unsigned integers via
their hex representation but raises `ValueError` on an empty blob; and
passes every other value through unchanged.  It is not failure-free. -/
theorem encode_primitive_value_cases :
    (∀ n : Int, encode_primitive_value (.vint n) = .ok (.vint n)) ∧
    (∀ s : String, is_0x_prefixed s = true →
        encode_primitive_value (.vstr s) = (parseHex0x s).map .vint) ∧
    (∀ ds : List Char, ds ≠ [] → (∀ c ∈ ds, (hexDigitVal c).isSome = true) →
        parseHex0x ⟨'0' :: 'x' :: ds⟩ = .ok ((hexRunVal ds : Nat) : Int) ∧
        encode_primitive_value (.vstr ⟨'0' :: 'x' :: ds⟩) =
          .ok (.vint (hexRunVal ds))) ∧
    (∀ (s : String) (w : List Char), (∀ c ∈ w, pyWhitespace c = true) →
        parseHex0x ⟨s.data ++ w⟩ = parseHex0x s) ∧
    (∀ s : String, is_0x_prefixed s = false →
        encode_primitive_value (.vstr s) = .ok (.vstr s)) ∧
    (∀ bs : List Nat, bs ≠ [] →
        encode_primitive_value (.vbytes bs) =
          .ok (.vint ((bs.foldl (fun acc b => 256 * acc + (b % 256 : Nat)) 0 : Nat) : Int))) ∧
    encode_primitive_value (.vbytes []) = .error .valueError ∧
    (∀ vs : List Value, encode_primitive_value (.vlist vs) = .ok (.vlist vs)) ∧
    (∀ kvs : List (String × Value),
        encode_primitive_value (.vdict kvs) = .ok (.vdict kvs)) ∧
    encode_primitive_value (.vstr "0x1_f") = .ok (.vint 31) ∧
    encode_primitive_value (.vstr "0x_1f") = .ok (.vint 31) ∧
    encode_primitive_value (.vstr "0x1f ") = .ok (.vint 31) ∧
    parseHex0x "0x1__f" = .error .valueError ∧
    parseHex0x "0x1f_" = .error .valueError ∧
    parseHex0x "0x" = .error .valueError := by
  refine ⟨fun n => rfl, ?_, ?_, ?_, ?_, ?_, rfl, fun vs => rfl, fun kvs => rfl,
    rfl, rfl, rfl, rfl, rfl, rfl⟩
  · intro s hp
    simp only [encode_primitive_value]
    rw [if_pos hp]
  · intro ds hne hall
    have hparse := parseHex0x_digit_run ds hne hall
    refine ⟨hparse, ?_⟩
    have hp : is_0x_prefixed ⟨'0' :: 'x' :: ds⟩ = true := by
      simp [is_0x_prefixed, strStartsWith, List.isPrefixOf]
    simp only [encode_primitive_value]
    rw [if_pos hp, hparse]
    rfl
  · exact parseHex0x_append_ws
  · intro s hp
    simp only [encode_primitive_value]
    rw [if_neg (by rw [hp]; exact Bool.false_ne_true)]
  · intro bs hbs
    simp [encode_primitive_value, hbs]

/-- **C9** amended-claim witness: the digit-run law applied at `"0x1f"`,
plus integer pass-through. -/
theorem encode_primitive_value_cases_witness :
    encode_primitive_value (.vstr ⟨'0' :: 'x' :: ['1', 'f']⟩) = .ok (.vint 31) ∧
    encode_primitive_value (.vint 7) = .ok (.vint 7) := by
  constructor
  · have h := (encode_primitive_value_cases.2.2.1 ['1', 'f'] (by decide)
      (by decide)).2
    rwa [show hexRunVal ['1', 'f'] = 31 from by decide] at h
  · exact encode_primitive_value_cases.1 7

/-- Whether the unwrap condition holds, as a proposition. -/
lemma unwrapCond_iff (outputs : List TypeSig) :
    unwrapCond outputs = true ↔
      (outputs.length = 1 ∨
        (outputs.length = 2 ∧ (outputs.get? 1).map TypeSig.type = some "felt*")) := by
  simp [unwrapCond]

/-- **C7**: a contract whose view methods include both `implementation`
and `get_implementation` resolves through the Legacy probe — the probe
cascade yields the `implementation()` result tagged `LEGACY`, never the
Argent-X tag; the descriptor is returned when the target is truthy. -/
theorem legacy_probe_wins (env : ProxyEnv)
    (h1 : "implementation" ∈ env.view_methods)
    (h2 : "get_implementation" ∈ env.view_methods) :
    probeProxy env = (some (.vint env.impl_result), some .LEGACY) ∧
    (env.is_contract = true →
      get_proxy_info env =
        if env.impl_result = 0 then none
        else some ⟨.vint env.impl_result, .LEGACY⟩) ∧
    (∀ p : StarknetProxy, get_proxy_info env = some p → p.type = .LEGACY) := by
  have hp : probeProxy env = (some (.vint env.impl_result), some .LEGACY) := by
    simp [probeProxy, h1]
  refine ⟨hp, ?_, ?_⟩
  · intro hc
    by_cases h : env.impl_result = 0
    · simp [get_proxy_info, hc, hp, truthy, h]
    · simp [get_proxy_info, hc, hp, truthy, h]
  · intro p hep
    by_cases hc : env.is_contract
    · rw [get_proxy_info, hc] at hep
      simp only [Bool.not_true, Bool.false_eq_true, if_false, hp] at hep
      by_cases ht : truthy (.vint env.impl_result)
      · rw [if_pos ht] at hep
        cases hep
        rfl
      · rw [if_neg ht] at hep
        exact Option.noConfusion hep
    · have hc' : env.is_contract = false := by
        cases h : env.is_contract
        · rfl
        · exact absurd h hc
      rw [get_proxy_info, hc'] at hep
      exact Option.noConfusion hep

/-- **C7** witness: a contract exposing both view methods resolves to
the `implementation()` result tagged Legacy. -/
theorem legacy_probe_wins_witness :
    get_proxy_info
        ⟨true, ["implementation", "get_implementation"], 7, 8, true, .vstr "0x0"⟩ =
      some ⟨.vint 7, .LEGACY⟩ := by
  have h := (legacy_probe_wins
    ⟨true, ["implementation", "get_implementation"], 7, 8, true, .vstr "0x0"⟩
    (by decide) (by decide)).2.1 rfl
  simpa using h

/-- **C8**: a `StarknetProxy` descriptor is returned only when the probe
cascade determined both a (truthy) target and a proxy kind; in
particular a storage probe answering the zero sentinel — either the
string `"0x0"` (the compared literal) or the integer `0` (falsy) —
yields no descriptor. -/
theorem proxy_requires_target_and_kind :
    (∀ env : ProxyEnv, "implementation" ∉ env.view_methods →
        "get_implementation" ∉ env.view_methods →
        env.storage_result = .vstr "0x0" →
        get_proxy_info env = none) ∧
    (∀ env : ProxyEnv, "implementation" ∉ env.view_methods →
        "get_implementation" ∉ env.view_methods →
        env.storage_result = .vint 0 →
        get_proxy_info env = none) ∧
    (∀ (env : ProxyEnv) (d : StarknetProxy), get_proxy_info env = some d →
        env.is_contract = true ∧
        probeProxy env = (some d.target, some d.type) ∧
        truthy d.target = true) := by
  refine ⟨?_, ?_, ?_⟩
  · intro env h1 h2 hs
    cases hc : env.is_contract
    · simp [get_proxy_info, hc]
    · by_cases hcl : env.client_available
      · simp [get_proxy_info, hc, probeProxy, h1, h2, hcl, hs, isZeroSentinelStr]
      · simp [get_proxy_info, hc, probeProxy, h1, h2, hcl]
  · intro env h1 h2 hs
    cases hc : env.is_contract
    · simp [get_proxy_info, hc]
    · by_cases hcl : env.client_available
      · simp [get_proxy_info, hc, probeProxy, h1, h2, hcl, hs, isZeroSentinelStr,
          truthy]
      · simp [get_proxy_info, hc, probeProxy, h1, h2, hcl]
  · intro env d hep
    cases hc : env.is_contract
    · rw [get_proxy_info, hc] at hep
      exact Option.noConfusion hep
    · rw [get_proxy_info, hc] at hep
      simp only [Bool.not_true, Bool.false_eq_true, if_false] at hep
      refine ⟨rfl, ?_⟩
      match hpt : probeProxy env with
      | (none, _) => rw [hpt] at hep; exact Option.noConfusion hep
      | (some t, none) => rw [hpt] at hep; exact Option.noConfusion hep
      | (some t, some ty) =>
        rw [hpt] at hep
        have hep' : (if truthy t = true then
            some (⟨t, ty⟩ : StarknetProxy) else none) = some d := hep
        by_cases ht : truthy t
        · rw [if_pos ht] at hep'
          cases hep'
          exact ⟨rfl, ht⟩
        · rw [if_neg ht] at hep'
          exact Option.noConfusion hep'

/-- **C8** witness: the zero-sentinel storage answer yields no
descriptor. -/
theorem proxy_requires_target_and_kind_witness :
    get_proxy_info ⟨true, [], 7, 8, true, .vstr "0x0"⟩ = none :=
  proxy_requires_target_and_kind.1 ⟨true, [], 7, 8, true, .vstr "0x0"⟩
    (by decide) (by decide) rfl

/-- **C4**: with more than one raw element, a successful output walk is
returned unwrapped to its single entry exactly when the signature
declares one output, or two outputs with the second `felt*`; every
other signature gets the full decoded sequence. -/
theorem final_unwrap_rule (outputs : List TypeSig) (raw : List Int)
    (d : Decoded) (ds : List Decoded) (h2 : 2 ≤ raw.length)
    (hok : decodeOutputs outputs raw = .ok (d :: ds)) :
    decode_returndata outputs raw =
      if outputs.length = 1 ∨
          (outputs.length = 2 ∧ (outputs.get? 1).map TypeSig.type = some "felt*")
      then .ok (.one d) else .ok (.many (d :: ds)) := by
  match raw, h2, hok with
  | a :: b :: rest, _, hok =>
    by_cases hc : outputs.length = 1 ∨
        (outputs.length = 2 ∧ (outputs.get? 1).map TypeSig.type = some "felt*")
    · have hbc : unwrapCond outputs = true := (unwrapCond_iff outputs).mpr hc
      rw [if_pos hc, decode_returndata, hok]
      simp [hbc]
    · have hbc : unwrapCond outputs = false := by
        cases hcu : unwrapCond outputs
        · rfl
        · exact absurd ((unwrapCond_iff outputs).mp hcu) hc
      rw [if_neg hc, decode_returndata, hok]
      simp [hbc]

/-- **C4** witness: a two-output `(felt, felt*)` signature over raw
`[2, 7, 8]` decodes to the bare array, not a one-element sequence. -/
theorem final_unwrap_rule_witness :
    decode_returndata [⟨some "a", "felt"⟩, ⟨some "arr", "felt*"⟩] [2, 7, 8] =
      .ok (.one (.arr [7, 8])) := by
  have h := final_unwrap_rule [⟨some "a", "felt"⟩, ⟨some "arr", "felt*"⟩]
    [2, 7, 8] (.arr [7, 8]) [] (by decide) rfl
  simpa using h

lemma strEndsWith_felt_star : strEndsWith "felt" "*" = false := by decide

lemma pre_encode_list_map_vint (xs : List Int) :
    pre_encode_list (xs.map .vint) = .ok (xs.map .vint) := by
  induction xs with
  | nil => rfl
  | cons x rest ih =>
    simp only [List.map_cons, pre_encode_list, pre_encode_value,
      encode_primitive_value, except_bind_ok, ih, except_pure_eq_ok]

lemma intList?_map_vint (xs : List Int) : intList? (xs.map .vint) = some xs := by
  induction xs with
  | nil => rfl
  | cons x rest ih => simp [intList?, ih]

lemma isLenPosition_lt {inputs : List TypeSig} {L : Int} {ty : TypeSig}
    {idx : Nat} (h : isLenPosition inputs L ty idx = true) : (idx : Int) < L := by
  have h' := h
  unfold isLenPosition at h'
  rw [Bool.and_eq_true, Bool.and_eq_true] at h'
  exact of_decide_eq_true h'.1.2

/-- The encode loop reads the argument list only at the positions
`index + 1` guarded by `index < lastIndex`; two argument lists agreeing
there produce the same pre-encoded output. -/
lemma encodeLoop_congr_args (inputs : List TypeSig) (args args' : List Value)
    (L : Int)
    (hacc : ∀ i : Nat, (i : Int) < L → args.get? (i + 1) = args'.get? (i + 1)) :
    ∀ (l : List (Value × TypeSig)) (idx : Nat) (flag : Bool),
      encodeLoop inputs args L l idx flag =
        encodeLoop inputs args' L l idx flag := by
  intro l
  induction l with
  | nil => intro idx flag; rfl
  | cons p rest ih =>
    intro idx flag
    obtain ⟨arg, ty⟩ := p
    simp only [encodeLoop]
    by_cases hstar : strEndsWith ty.type "*" = true
    · rw [if_pos hstar, if_pos hstar]
      cases flag
      · simp only [Bool.false_eq_true, if_false]
        cases hp : pre_encode_value arg
        · rfl
        · simp only [except_bind_ok, ih]
      · simp only [if_true, ih]
    · rw [if_neg hstar, if_neg hstar]
      by_cases hlenp : isLenPosition inputs L ty idx = true
      · rw [if_pos hlenp, if_pos hlenp]
        cases hp : pre_encode_value arg with
        | error e => rfl
        | ok v =>
          simp only [except_bind_ok]
          cases v with
          | vint m =>
            rw [hacc idx (isLenPosition_lt hlenp)]
            cases ha : pre_encode_array ((args'.get? (idx + 1)).getD (.vint 0))
            · rfl
            · simp only [except_bind_ok, ih]
          | vstr s => simp only [ih]
          | vbytes bs => simp only [ih]
          | vlist vs => simp only [ih]
          | vdict kvs => simp only [ih]
      · rw [if_neg hlenp, if_neg hlenp]
        cases hp : pre_encode_value arg
        · rfl
        · simp only [except_bind_ok, ih]

lemma zip_append_left {α β : Type} (l₁ : List α) (l₂ : List β) (ex : List α)
    (h : l₁.length = l₂.length) : (l₁ ++ ex).zip l₂ = l₁.zip l₂ := by
  induction l₁ generalizing l₂ with
  | nil =>
    cases l₂ with
    | nil => simp
    | cons b bs => simp at h
  | cons a as ih =>
    cases l₂ with
    | nil => simp at h
    | cons b bs =>
      simp only [List.cons_append, List.zip_cons_cons, List.length_cons] at h ⊢
      rw [ih bs (by omega)]

/-- **C10**: surplus positional arguments beyond the declared inputs are
silently ignored — appending extra arguments to an exactly-matching
argument list leaves the emitted calldata unchanged (only the first
`min(len(inputs), len(args))` positions contribute). -/
theorem surplus_args_ignored (inputs : List TypeSig) (args extra : List Value)
    (hlen : args.length = inputs.length) :
    encode_calldata inputs (args ++ extra) = encode_calldata inputs args := by
  have hzip : (args ++ extra).zip inputs = args.zip inputs :=
    zip_append_left args inputs extra hlen
  have hmin1 : min inputs.length (args ++ extra).length = inputs.length := by
    simp only [List.length_append]
    omega
  have hmin2 : min inputs.length args.length = inputs.length := by omega
  have hacc : ∀ i : Nat, (i : Int) < (inputs.length : Int) - 1 →
      (args ++ extra).get? (i + 1) = args.get? (i + 1) := by
    intro i hi
    have : i + 1 < args.length := by omega
    exact List.get?_append this
  simp only [encode_calldata, preEncodedArgs, hzip, hmin1, hmin2]
  rw [encodeLoop_congr_args inputs (args ++ extra) args
    ((inputs.length : Int) - 1) hacc (args.zip inputs) 0 false]

/-- **C10** witness: a one-input signature given two arguments encodes
only the first. -/
theorem surplus_args_ignored_witness :
    encode_calldata [⟨some "a", "felt"⟩] [.vint 1, .vint 2] =
      encode_calldata [⟨some "a", "felt"⟩] [.vint 1] := by
  have h := surplus_args_ignored [⟨some "a", "felt"⟩] [.vint 1] [.vint 2] rfl
  simpa using h

lemma isLenPosition_all_felt (inputs : List TypeSig)
    (hf : ∀ t ∈ inputs, t.type = "felt") (L : Int) (ty : TypeSig) (idx : Nat) :
    isLenPosition inputs L ty idx = false := by
  unfold isLenPosition
  match hq : inputs.get? (idx + 1) with
  | none => simp
  | some s =>
    have hs : s.type = "felt" := hf s (List.get?_mem hq)
    simp [hs, strEndsWith_felt_star]

lemma encodeLoop_all_felt (inputs : List TypeSig)
    (hf : ∀ t ∈ inputs, t.type = "felt") (callArgs : List Value) (L : Int) :
    ∀ (vals : List Int) (sigs : List TypeSig), (∀ t ∈ sigs, t.type = "felt") →
      vals.length = sigs.length → ∀ (idx : Nat) (flag : Bool),
      encodeLoop inputs callArgs L ((vals.map .vint).zip sigs) idx flag =
        .ok (vals.map .vint) := by
  intro vals
  induction vals with
  | nil =>
    intro sigs _ hl idx flag
    cases sigs with
    | nil => rfl
    | cons t ts => simp at hl
  | cons v vs ih =>
    intro sigs hfs hl idx flag
    cases sigs with
    | nil => simp at hl
    | cons t ts =>
      have ht : t.type = "felt" := hfs t (by simp)
      have hts : ∀ s ∈ ts, s.type = "felt" := fun s hs => hfs s (by simp [hs])
      have hstar : ¬ strEndsWith t.type "*" = true := by
        rw [ht, strEndsWith_felt_star]; exact Bool.false_ne_true
      have hlp : ¬ isLenPosition inputs L t idx = true := by
        rw [isLenPosition_all_felt inputs hf L t idx]
        exact Bool.false_ne_true
      have hz : (((v :: vs).map Value.vint).zip (t :: ts)) =
          (Value.vint v, t) :: ((vs.map Value.vint).zip ts) := rfl
      rw [hz]
      simp only [encodeLoop]
      rw [if_neg hstar, if_neg hlp]
      simp only [pre_encode_value, encode_primitive_value, except_bind_ok,
        ih ts hts (by simpa using hl) (idx + 1) flag, except_pure_eq_ok,
        List.map_cons]

lemma fromPython_all_felt (sigs : List TypeSig) :
    (∀ t ∈ sigs, t.type = "felt") → ∀ vals : List Int,
      vals.length = sigs.length →
      fromPython sigs (vals.map .vint) = .ok vals := by
  induction sigs with
  | nil =>
    intro _ vals hl
    cases vals with
    | nil => rfl
    | cons v vs => simp at hl
  | cons t ts ih =>
    intro hfs vals hl
    have ht : t.type = "felt" := hfs t (by simp)
    have hts : ∀ s ∈ ts, s.type = "felt" := fun s hs => hfs s (by simp [hs])
    cases vals with
    | nil => simp at hl
    | cons v vs =>
      have hskip : packerSkipsLen t ts = false := by
        unfold packerSkipsLen
        cases hts' : ts with
        | nil => simp
        | cons r rs =>
          have hr : r.type = "felt" := hts r (by simp [hts'])
          simp [hr, strEndsWith_felt_star]
      have hstar : ¬ strEndsWith t.type "*" = true := by
        rw [ht, strEndsWith_felt_star]; exact Bool.false_ne_true
      have hu : ¬ t.type = "Uint256" := by rw [ht]; decide
      simp only [List.map_cons, fromPython]
      rw [if_neg (by rw [hskip]; exact Bool.false_ne_true), if_neg hstar,
        if_neg hu]
      simp only [ih hts vs (by simpa using hl), except_map_ok]

lemma decodeOutputs_all_felt (sigs : List TypeSig) :
    (∀ t ∈ sigs, t.type = "felt") → ∀ vals : List Int,
      vals.length = sigs.length →
      decodeOutputs sigs vals = .ok (vals.map .felt) := by
  induction sigs with
  | nil =>
    intro _ vals hl
    cases vals with
    | nil => rfl
    | cons v vs => simp at hl
  | cons t ts ih =>
    intro hfs vals hl
    have ht : t.type = "felt" := hfs t (by simp)
    have hts : ∀ s ∈ ts, s.type = "felt" := fun s hs => hfs s (by simp [hs])
    cases vals with
    | nil => simp at hl
    | cons v vs =>
      rw [decodeOutputs_scalar_step t ts v vs (by rw [ht]; decide)
        (no_star_lookahead hts) (by rw [ht]; decide),
        ih hts vs (by simpa using hl)]
      rfl

lemma unwrapCond_all_felt (sigs : List TypeSig)
    (hf : ∀ t ∈ sigs, t.type = "felt") (h2 : 2 ≤ sigs.length) :
    unwrapCond sigs = false := by
  unfold unwrapCond
  have h1 : (sigs.length == 1) = false := by
    rw [beq_eq_false_iff_ne]
    omega
  rw [h1, Bool.false_or, Bool.and_eq_false_iff]
  by_cases hl2 : sigs.length = 2
  · right
    match hq : sigs.get? 1 with
    | none =>
      rw [List.get?_eq_none] at hq
      omega
    | some s =>
      have hs : s.type = "felt" := hf s (List.get?_mem hq)
      simp [hq, hs]
  · left
    rw [beq_eq_false_iff_ne]
    exact hl2

/-- **C5**: for a signature of scalar felts (no wide-integer, no array
types) and a matching tuple of integer values, decoding the encoding
recovers the values exactly — as the bare scalar for a one-field
signature (the decoder's single-value unwrap) and as the full sequence
otherwise. -/
theorem scalar_roundtrip (sig : List TypeSig) (vals : List Int)
    (hf : ∀ t ∈ sig, t.type = "felt") (hlen : vals.length = sig.length) :
    encode_calldata sig (vals.map .vint) = .ok vals ∧
    decode_returndata sig vals =
      .ok (match vals with
           | [v] => .one (.felt v)
           | vs => .many (vs.map .felt)) := by
  constructor
  · have hzip : ((vals.map Value.vint).zip sig) = ((vals.map Value.vint).zip sig) := rfl
    simp only [encode_calldata, preEncodedArgs]
    rw [encodeLoop_all_felt sig hf (vals.map .vint)
      ((min sig.length (vals.map Value.vint).length : Nat) - 1) vals sig hf hlen 0 false]
    simp only [except_bind_ok]
    exact fromPython_all_felt sig hf vals hlen
  · match vals, hlen with
    | [], _ => rfl
    | [v], _ => rfl
    | v1 :: v2 :: vs, hlen =>
      have hdec := decodeOutputs_all_felt sig hf (v1 :: v2 :: vs) hlen
      have huw : unwrapCond sig = false :=
        unwrapCond_all_felt sig hf (by rw [← hlen]; simp)
      rw [decode_returndata, hdec]
      simp [huw]

/-- **C5** witness: a two-felt signature round-trips `[7, 9]`, and a
one-felt signature round-trips `5` to the bare scalar. -/
theorem scalar_roundtrip_witness :
    (encode_calldata [⟨some "a", "felt"⟩, ⟨some "b", "felt"⟩]
        [.vint 7, .vint 9] = .ok [7, 9] ∧
      decode_returndata [⟨some "a", "felt"⟩, ⟨some "b", "felt"⟩] [7, 9] =
        .ok (.many [.felt 7, .felt 9])) ∧
    decode_returndata [⟨some "a", "felt"⟩] [5] = .ok (.one (.felt 5)) := by
  constructor
  · have h := scalar_roundtrip [⟨some "a", "felt"⟩, ⟨some "b", "felt"⟩] [7, 9]
      (by intro t ht; fin_cases ht <;> rfl) rfl
    exact ⟨by simpa using h.1, by simpa using h.2⟩
  · have h := scalar_roundtrip [⟨some "a", "felt"⟩] [5]
      (by intro t ht; fin_cases ht <;> rfl) rfl
    simpa using h.2

lemma isLenPosition_false_of_nostar (inputs : List TypeSig) (L : Int)
    (ty : TypeSig) (idx : Nat)
    (h : ∀ s, inputs.get? (idx + 1) = some s → strEndsWith s.type "*" = false) :
    isLenPosition inputs L ty idx = false := by
  unfold isLenPosition
  cases hq : inputs.get? (idx + 1) with
  | none => simp [hq]
  | some s => simp [hq, h s hq]

/-- Walking a block of scalar-felt positions (with no array-marker type
reachable by the lookahead) pre-encodes each argument in place and moves
on with `index` advanced past the block. -/
lemma encodeLoop_felt_block (inputs : List TypeSig) (callArgs : List Value)
    (L : Int) :
    ∀ (vals : List Int) (sigs : List TypeSig), (∀ t ∈ sigs, t.type = "felt") →
      vals.length = sigs.length →
      ∀ (rest : List (Value × TypeSig)) (idx : Nat) (flag : Bool),
      (∀ j : Nat, idx ≤ j → j < idx + sigs.length →
        ∀ s, inputs.get? (j + 1) = some s → strEndsWith s.type "*" = false) →
      encodeLoop inputs callArgs L ((vals.map .vint).zip sigs ++ rest) idx flag =
        (encodeLoop inputs callArgs L rest (idx + sigs.length) flag).map
          (fun es => vals.map .vint ++ es) := by
  intro vals
  induction vals with
  | nil =>
    intro sigs _ hl rest idx flag _
    cases sigs with
    | nil =>
      simp only [List.map_nil, List.zip_nil_left, List.nil_append,
        List.length_nil, Nat.add_zero]
      cases hX : encodeLoop inputs callArgs L rest idx flag with
      | error e => rfl
      | ok es => rfl
    | cons t ts => simp at hl
  | cons v vs ih =>
    intro sigs hf hl rest idx flag hacc
    cases sigs with
    | nil => simp at hl
    | cons t ts =>
      have ht : t.type = "felt" := hf t (by simp)
      have hts : ∀ s ∈ ts, s.type = "felt" := fun s hs => hf s (by simp [hs])
      have hstar : ¬ strEndsWith t.type "*" = true := by
        rw [ht, strEndsWith_felt_star]; exact Bool.false_ne_true
      have hlp : ¬ isLenPosition inputs L t idx = true := by
        rw [isLenPosition_false_of_nostar inputs L t idx
          (fun s hs => hacc idx le_rfl (by simp) s hs)]
        exact Bool.false_ne_true
      have hz : ((v :: vs).map Value.vint).zip (t :: ts) ++ rest =
          (Value.vint v, t) :: ((vs.map Value.vint).zip ts ++ rest) := rfl
      rw [hz]
      simp only [encodeLoop]
      rw [if_neg hstar, if_neg hlp]
      rw [ih ts hts (by simpa using hl) rest (idx + 1) flag
        (fun j hj1 hj2 s hs => hacc j (by omega) (by simp at hj2 ⊢; omega) s hs)]
      have harith : idx + 1 + ts.length = idx + (t :: ts).length := by
        simp [List.length_cons]; omega
      rw [harith]
      cases hX : encodeLoop inputs callArgs L rest (idx + (t :: ts).length) flag with
      | error e => simp [pre_encode_value, encode_primitive_value]
      | ok es => simp [pre_encode_value, encode_primitive_value]

/-- The packer walks a block of scalar-felt inputs by emitting one slot
per value, provided the next input after the block is not array-typed. -/
lemma fromPython_felt_append (sigs : List TypeSig) :
    (∀ t ∈ sigs, t.type = "felt") →
    ∀ vals : List Int, vals.length = sigs.length →
    ∀ (restS : List TypeSig) (restA : List Value),
      (∀ s, restS.head? = some s → strEndsWith s.type "*" = false) →
      fromPython (sigs ++ restS) (vals.map .vint ++ restA) =
        (fromPython restS restA).map (fun tl => vals ++ tl) := by
  induction sigs with
  | nil =>
    intro _ vals hl restS restA _
    cases vals with
    | nil =>
      simp only [List.nil_append, List.map_nil]
      cases hX : fromPython restS restA with
      | error e => rfl
      | ok tl => rfl
    | cons v vs => simp at hl
  | cons t ts ih =>
    intro hf vals hl restS restA hres
    have ht : t.type = "felt" := hf t (by simp)
    have hts : ∀ s ∈ ts, s.type = "felt" := fun s hs => hf s (by simp [hs])
    cases vals with
    | nil => simp at hl
    | cons v vs =>
      have hskip : packerSkipsLen t (ts ++ restS) = false := by
        unfold packerSkipsLen
        cases hts' : ts with
        | nil =>
          simp only [List.nil_append]
          cases hr : restS.head? with
          | none => simp [hr]
          | some s => simp [hr, hres s hr]
        | cons r rs =>
          have hrf : r.type = "felt" := hts r (by simp [hts'])
          simp [hrf, strEndsWith_felt_star]
      have hstar : ¬ strEndsWith t.type "*" = true := by
        rw [ht, strEndsWith_felt_star]; exact Bool.false_ne_true
      have hu : ¬ t.type = "Uint256" := by rw [ht]; decide
      simp only [List.map_cons, List.cons_append, List.append_eq, fromPython]
      rw [if_neg (by rw [hskip]; exact Bool.false_ne_true), if_neg hstar,
        if_neg hu]
      rw [ih hts vs (by simpa using hl) restS restA hres]
      cases hX : fromPython restS restA with
      | error e => rfl
      | ok tl => rfl

lemma fromPython_skip_step (ty : TypeSig) (rest : List TypeSig)
    (args : List Value) (hskip : packerSkipsLen ty rest = true) :
    fromPython (ty :: rest) args = fromPython rest args := by
  simp only [fromPython]
  rw [if_pos hskip]

lemma fromPython_star_step (ty : TypeSig) (rest : List TypeSig)
    (h2 : strEndsWith ty.type "*" = true)
    (hskip : packerSkipsLen ty rest = false)
    (xs : List Int) (args' : List Value) :
    fromPython (ty :: rest) (.vlist (xs.map .vint) :: args') =
      (fromPython rest args').map
        (fun tl => (xs.length : Int) :: xs ++ tl) := by
  simp only [fromPython]
  rw [if_neg (by rw [hskip]; exact Bool.false_ne_true), if_pos h2]
  show (match intList? (xs.map Value.vint) with
    | some ys => (fromPython rest args').map
        (fun tl => (ys.length : Int) :: ys ++ tl)
    | none => (Except.error PyErr.typeError : Except PyErr (List Int))) =
    (fromPython rest args').map (fun tl => (xs.length : Int) :: xs ++ tl)
  rw [intList?_map_vint]

/-- **C1** counterexample: with two `(len, arr*)` pairs back to back,
the second pair satisfies every condition of the claim (position 2 is
named `b_len`, is not the last processed input, position 3 is
array-typed, and the supplied `1` is an integer), yet the skipped
`index += 1` on the consumed-array `continue` leaves the lookahead one
position behind — the caller-supplied length `1` is recorded literally
in the pre-encoded arguments instead of being replaced by the flattened
array, and the call fails at the packer with a type error instead of
emitting a derived-length wire sequence. -/
theorem second_len_pair_encoded_literally :
    preEncodedArgs
        [⟨some "a_len", "felt"⟩, ⟨some "a", "felt*"⟩,
         ⟨some "b_len", "felt"⟩, ⟨some "b", "felt*"⟩]
        [.vint 99, .vlist [.vint 1, .vint 2, .vint 3], .vint 1,
         .vlist [.vint 4]] =
      .ok [.vlist [.vint 1, .vint 2, .vint 3], .vint 1, .vlist [.vint 4]] ∧
    encode_calldata
        [⟨some "a_len", "felt"⟩, ⟨some "a", "felt*"⟩,
         ⟨some "b_len", "felt"⟩, ⟨some "b", "felt*"⟩]
        [.vint 99, .vlist [.vint 1, .vint 2, .vint 3], .vint 1,
         .vlist [.vint 4]] =
      .error .typeError :=
  ⟨rfl, rfl⟩

/-- **C1** as amended: for a `(…_len : felt, … : T*)` pair at any
position of a signature whose remaining inputs are scalar felts (so no
array-typed input precedes the pair), an integer supplied for the
length slot is ignored entirely: the pre-encoder replaces it by the
flattened array at the next position and marks that position consumed,
and the packer derives the emitted length prefix from the actual array
size — the wire is `prefix ++ [len(xs)] ++ xs ++ suffix` for every
caller-supplied `n`; in particular `[1,2,3]` yields `[3,1,2,3]`. -/
theorem array_len_derived_from_payload
    (preSigs sufSigs : List TypeSig) (preVals sufVals : List Int)
    (nm1 : String) (nm2 : Option String) (tp : String) (n : Int)
    (xs : List Int)
    (hpre : ∀ t ∈ preSigs, t.type = "felt")
    (hsuf : ∀ t ∈ sufSigs, t.type = "felt")
    (hplen : preVals.length = preSigs.length)
    (hslen : sufVals.length = sufSigs.length)
    (h1 : strEndsWith nm1 "_len" = true) (h2 : strEndsWith tp "*" = true) :
    encode_calldata (preSigs ++ ⟨some nm1, "felt"⟩ :: ⟨nm2, tp⟩ :: sufSigs)
        (preVals.map .vint ++
          .vint n :: .vlist (xs.map .vint) :: sufVals.map .vint) =
      .ok (preVals ++ (xs.length : Int) :: (xs ++ sufVals)) := by
  have hIlen : (preSigs ++ ⟨some nm1, "felt"⟩ :: ⟨nm2, tp⟩ :: sufSigs :
      List TypeSig).length = preSigs.length + (sufSigs.length + 1 + 1) := by
    simp
  have hClen : (preVals.map Value.vint ++ Value.vint n ::
      Value.vlist (xs.map Value.vint) :: sufVals.map Value.vint).length =
      preSigs.length + (sufSigs.length + 1 + 1) := by
    simp [hplen, hslen]
  have hmin : min (preSigs ++ ⟨some nm1, "felt"⟩ :: ⟨nm2, tp⟩ :: sufSigs :
      List TypeSig).length (preVals.map Value.vint ++ Value.vint n ::
        Value.vlist (xs.map Value.vint) :: sufVals.map Value.vint).length =
      preSigs.length + (sufSigs.length + 1 + 1) := by
    rw [hIlen, hClen, min_self]
  have hzip : (preVals.map Value.vint ++ Value.vint n ::
      Value.vlist (xs.map Value.vint) :: sufVals.map Value.vint).zip
        (preSigs ++ ⟨some nm1, "felt"⟩ :: ⟨nm2, tp⟩ :: sufSigs) =
      ((preVals.map Value.vint).zip preSigs) ++
        ((Value.vint n, (⟨some nm1, "felt"⟩ : TypeSig)) ::
          (Value.vlist (xs.map Value.vint), (⟨nm2, tp⟩ : TypeSig)) ::
          ((sufVals.map Value.vint).zip sufSigs)) := by
    rw [List.zip_append (by simp [hplen])]
    rfl
  have hacc0 : ∀ j : Nat, 0 ≤ j → j < 0 + preSigs.length →
      ∀ s, (preSigs ++ ⟨some nm1, "felt"⟩ :: ⟨nm2, tp⟩ :: sufSigs :
        List TypeSig).get? (j + 1) = some s →
      strEndsWith s.type "*" = false := by
    intro j _ hj2 s hs
    rcases Nat.lt_or_ge (j + 1) preSigs.length with hlt | hge
    · rw [List.get?_append hlt] at hs
      rw [hpre s (List.get?_mem hs)]
      exact strEndsWith_felt_star
    · have hj1 : j + 1 - preSigs.length = 0 := by omega
      rw [List.get?_append_right hge, hj1] at hs
      have hss : (⟨some nm1, "felt"⟩ : TypeSig) = s := by simpa using hs
      rw [← hss]
      exact strEndsWith_felt_star
  have haccS : ∀ j : Nat, preSigs.length + 1 ≤ j →
      j < preSigs.length + 1 + sufSigs.length →
      ∀ s, (preSigs ++ ⟨some nm1, "felt"⟩ :: ⟨nm2, tp⟩ :: sufSigs :
        List TypeSig).get? (j + 1) = some s →
      strEndsWith s.type "*" = false := by
    intro j hj1 hj2 s hs
    rw [List.get?_append_right (by omega)] at hs
    have hk : j + 1 - preSigs.length = (j - 1 - preSigs.length) + 1 + 1 := by
      omega
    rw [hk, List.get?_cons_succ, List.get?_cons_succ] at hs
    rw [hsuf s (List.get?_mem hs)]
    exact strEndsWith_felt_star
  have hgetArr : (preSigs ++ ⟨some nm1, "felt"⟩ :: ⟨nm2, tp⟩ :: sufSigs :
      List TypeSig).get? (preSigs.length + 1) = some ⟨nm2, tp⟩ := by
    rw [List.get?_append_right (by omega)]
    rw [show preSigs.length + 1 - preSigs.length = 1 from by omega]
    rfl
  have hcallget : (preVals.map Value.vint ++ Value.vint n ::
      Value.vlist (xs.map Value.vint) :: sufVals.map Value.vint).get?
        (preSigs.length + 1) = some (Value.vlist (xs.map Value.vint)) := by
    rw [List.get?_append_right (by simp [hplen])]
    rw [show preSigs.length + 1 - (preVals.map Value.vint).length = 1 from by
      simp [hplen]]
    rfl
  have hlenpos : isLenPosition
      (preSigs ++ ⟨some nm1, "felt"⟩ :: ⟨nm2, tp⟩ :: sufSigs)
      (((min (preSigs ++ ⟨some nm1, "felt"⟩ :: ⟨nm2, tp⟩ :: sufSigs :
          List TypeSig).length (preVals.map Value.vint ++ Value.vint n ::
          Value.vlist (xs.map Value.vint) :: sufVals.map Value.vint).length :
          Nat) : Int) - 1) ⟨some nm1, "felt"⟩ preSigs.length = true := by
    unfold isLenPosition
    rw [hgetArr, hmin]
    simp only [h1, h2, Bool.true_and, Bool.and_true, decide_eq_true_eq]
    push_cast
    omega
  have hpair : encodeLoop
      (preSigs ++ ⟨some nm1, "felt"⟩ :: ⟨nm2, tp⟩ :: sufSigs)
      (preVals.map Value.vint ++ Value.vint n ::
        Value.vlist (xs.map Value.vint) :: sufVals.map Value.vint)
      (((min (preSigs ++ ⟨some nm1, "felt"⟩ :: ⟨nm2, tp⟩ :: sufSigs :
          List TypeSig).length (preVals.map Value.vint ++ Value.vint n ::
          Value.vlist (xs.map Value.vint) :: sufVals.map Value.vint).length :
          Nat) : Int) - 1)
      ((Value.vint n, (⟨some nm1, "felt"⟩ : TypeSig)) ::
        (Value.vlist (xs.map Value.vint), (⟨nm2, tp⟩ : TypeSig)) ::
        ((sufVals.map Value.vint).zip sufSigs))
      preSigs.length false =
      (encodeLoop
        (preSigs ++ ⟨some nm1, "felt"⟩ :: ⟨nm2, tp⟩ :: sufSigs)
        (preVals.map Value.vint ++ Value.vint n ::
          Value.vlist (xs.map Value.vint) :: sufVals.map Value.vint)
        (((min (preSigs ++ ⟨some nm1, "felt"⟩ :: ⟨nm2, tp⟩ :: sufSigs :
            List TypeSig).length (preVals.map Value.vint ++ Value.vint n ::
            Value.vlist (xs.map Value.vint) :: sufVals.map Value.vint).length :
            Nat) : Int) - 1)
        ((sufVals.map Value.vint).zip sufSigs) (preSigs.length + 1) false).map
        (fun es => Value.vlist (xs.map Value.vint) :: es) := by
    simp only [encodeLoop]
    rw [if_neg (show ¬ strEndsWith (TypeSig.mk (some nm1) "felt").type "*" = true
        from by rw [show (TypeSig.mk (some nm1) "felt").type = "felt" from rfl,
          strEndsWith_felt_star]; exact Bool.false_ne_true),
      if_pos hlenpos]
    simp only [pre_encode_value, encode_primitive_value, except_bind_ok]
    rw [hcallget]
    simp only [Option.getD_some]
    rw [show pre_encode_array (Value.vlist (xs.map Value.vint)) =
        .ok (Value.vlist (xs.map Value.vint)) from by
      simp [pre_encode_array, pre_encode_list_map_vint]]
    simp only [except_bind_ok]
    rw [if_pos (show strEndsWith (TypeSig.mk nm2 tp).type "*" = true from h2)]
    cases hX : encodeLoop
        (preSigs ++ ⟨some nm1, "felt"⟩ :: ⟨nm2, tp⟩ :: sufSigs)
        (preVals.map Value.vint ++ Value.vint n ::
          Value.vlist (xs.map Value.vint) :: sufVals.map Value.vint)
        (((min (preSigs ++ ⟨some nm1, "felt"⟩ :: ⟨nm2, tp⟩ :: sufSigs :
            List TypeSig).length (preVals.map Value.vint ++ Value.vint n ::
            Value.vlist (xs.map Value.vint) :: sufVals.map Value.vint).length :
            Nat) : Int) - 1)
        ((sufVals.map Value.vint).zip sufSigs) (preSigs.length + 1) false with
    | error e => rfl
    | ok es => rfl
  have hsuffix : encodeLoop
      (preSigs ++ ⟨some nm1, "felt"⟩ :: ⟨nm2, tp⟩ :: sufSigs)
      (preVals.map Value.vint ++ Value.vint n ::
        Value.vlist (xs.map Value.vint) :: sufVals.map Value.vint)
      (((min (preSigs ++ ⟨some nm1, "felt"⟩ :: ⟨nm2, tp⟩ :: sufSigs :
          List TypeSig).length (preVals.map Value.vint ++ Value.vint n ::
          Value.vlist (xs.map Value.vint) :: sufVals.map Value.vint).length :
          Nat) : Int) - 1)
      ((sufVals.map Value.vint).zip sufSigs) (preSigs.length + 1) false =
      .ok (sufVals.map Value.vint) := by
    conv_lhs => rw [← List.append_nil ((sufVals.map Value.vint).zip sufSigs)]
    rw [encodeLoop_felt_block _ _ _ sufVals sufSigs hsuf hslen []
      (preSigs.length + 1) false haccS]
    simp [encodeLoop]
  have hloop : preEncodedArgs
      (preSigs ++ ⟨some nm1, "felt"⟩ :: ⟨nm2, tp⟩ :: sufSigs)
      (preVals.map Value.vint ++ Value.vint n ::
        Value.vlist (xs.map Value.vint) :: sufVals.map Value.vint) =
      .ok (preVals.map Value.vint ++
        Value.vlist (xs.map Value.vint) :: sufVals.map Value.vint) := by
    simp only [preEncodedArgs]
    rw [hzip]
    rw [encodeLoop_felt_block _ _ _ preVals preSigs hpre hplen _ 0 false hacc0]
    simp only [Nat.zero_add]
    rw [hpair, hsuffix]
    rfl
  have hskipLen : packerSkipsLen ⟨some nm1, "felt"⟩ (⟨nm2, tp⟩ :: sufSigs) =
      true := by
    simp [packerSkipsLen, h1, h2]
  have hskipArr : packerSkipsLen ⟨nm2, tp⟩ sufSigs = false := by
    unfold packerSkipsLen
    cases hq : sufSigs.head? with
    | none => simp [hq]
    | some s =>
      have hmem : s ∈ sufSigs := List.mem_of_mem_head? (by rw [hq]; rfl)
      simp [hq, hsuf s hmem, strEndsWith_felt_star]
  have hinner : fromPython (⟨some nm1, "felt"⟩ :: ⟨nm2, tp⟩ :: sufSigs)
      (Value.vlist (xs.map Value.vint) :: sufVals.map Value.vint) =
      .ok ((xs.length : Int) :: (xs ++ sufVals)) := by
    rw [fromPython_skip_step ⟨some nm1, "felt"⟩ (⟨nm2, tp⟩ :: sufSigs) _ hskipLen,
      fromPython_star_step ⟨nm2, tp⟩ sufSigs h2 hskipArr xs
        (sufVals.map Value.vint),
      fromPython_all_felt sufSigs hsuf sufVals hslen]
    rfl
  simp only [encode_calldata, hloop, except_bind_ok]
  rw [fromPython_felt_append preSigs hpre preVals hplen
    (⟨some nm1, "felt"⟩ :: ⟨nm2, tp⟩ :: sufSigs)
    (Value.vlist (xs.map Value.vint) :: sufVals.map Value.vint)
    (fun s hs => by
      have hss : (⟨some nm1, "felt"⟩ : TypeSig) = s := by simpa using hs
      rw [← hss]
      exact strEndsWith_felt_star)]
  rw [hinner]
  rfl

/-- **C1** amended-claim witness: array `[1,2,3]` against a
`(arr_len, arr : felt*)` pair produces wire `[3,1,2,3]` although the
caller passed `99` for the length slot. -/
theorem array_len_derived_from_payload_witness :
    encode_calldata [⟨some "arr_len", "felt"⟩, ⟨some "arr", "felt*"⟩]
        [.vint 99, .vlist [.vint 1, .vint 2, .vint 3]] = .ok [3, 1, 2, 3] := by
  have h := array_len_derived_from_payload [] [] [] [] "arr_len" (some "arr")
    "felt*" 99 [1, 2, 3] (fun t ht => absurd ht (List.not_mem_nil t))
    (fun t ht => absurd ht (List.not_mem_nil t)) rfl rfl (by decide) (by decide)
  simpa using h

end ApeStarknet
